import Mathlib

/-!
Shallow embedding of the Plandex CLI-API asynchronous job subsystem
(`app/cli-api/jobs/manager.go`, the `jobs` package type definitions, and the
`webhooks` package sender), together with theorems settling the frozen claims
about the job lifecycle, eviction sweep and webhook delivery.

Time instants and durations (`time.Time` / `time.Duration`, int64 nanoseconds
in Go) are modelled as `Int`; `time.Before`/`time.After` become `<`/`>`.
Go maps keyed by job id are modelled as `List Job` (the map key always equals
`job.ID`, and ids are assumed distinct where a claim needs it).
-/

namespace Plandex

/-- The five job states `JobStatus` (jobs package constants). -/
inductive JobStatus
  | pending
  | running
  | completed
  | failed
  | cancelled
deriving DecidableEq, Repr

/-- One unit of asynchronous work, the `Job` struct (jobs package `Job` struct).
`metadata` values are opaque to the core, modelled as strings. -/
structure Job where
  id : String
  command : String
  args : List String
  status : JobStatus
  createdAt : Int
  startedAt : Option Int
  completedAt : Option Int
  output : String
  error : String
  exitCode : Option Int
  metadata : List (String × String)
  webhookURL : String
  ttl : Int
deriving DecidableEq, Repr

/-- Whether the job has finished: `Job.IsComplete` is true when it is
(completed, failed, or cancelled). -/
def Job.IsComplete (j : Job) : Bool :=
  j.status = JobStatus.completed ∨ j.status = JobStatus.failed ∨
    j.status = JobStatus.cancelled

/-- The fixed allow-list of CLI verbs (`Manager.validateCommand`). -/
def allowedCommands : List String :=
  ["new", "tell", "chat", "continue", "load", "ls", "plans", "cd",
   "apply", "build", "log", "convo", "diff", "current", "config",
   "models", "set-config", "set-model", "branches", "checkout",
   "archive", "unarchive", "usage", "version", "debug", "stop",
   "rewind", "reject", "clear", "summary", "delete-plan"]

/-- Embedding of `Manager.validateCommand`: ok when the command is in the
allow-list,
otherwise the "command not allowed" error. -/
def validateCommand (command : String) : Except String Unit :=
  if command ∈ allowedCommands then Except.ok ()
  else Except.error ("command not allowed: " ++ command)

/-- A request to create a new job (`JobRequest`). -/
structure JobRequest where
  command : String
  args : List String
  metadata : List (String × String)
  webhookURL : String
  ttl : Option Int
deriving DecidableEq, Repr

/-- Embedding of `Manager.CreateJob`: validate the command; on failure return the error
with the store untouched; on success insert a fresh pending job (the uuid,
current time and configured default TTL are passed in explicitly). -/
def CreateJob (jobs : List Job) (req : JobRequest) (newId : String)
    (now : Int) (defaultTTL : Int) : Except String Job × List Job :=
  match validateCommand req.command with
  | Except.error e => (Except.error ("invalid command: " ++ e), jobs)
  | Except.ok _ =>
    let job : Job :=
      { id := newId
        command := req.command
        args := req.args
        status := JobStatus.pending
        createdAt := now
        startedAt := none
        completedAt := none
        output := ""
        error := ""
        exitCode := none
        metadata := req.metadata
        webhookURL := req.webhookURL
        ttl := match req.ttl with | some t => t | none => defaultTTL }
    (Except.ok job, job :: jobs)

/-- Embedding of `Manager.GetJob`: look the job up by id. -/
def GetJob (jobs : List Job) (id : String) : Except String Job :=
  match jobs.find? (fun j => j.id = id) with
  | some j => Except.ok j
  | none => Except.error ("job not found: " ++ id)

/-- Embedding of `Manager.CancelJob` (store-level view): not-found and already-complete
are errors that leave the store and the running registry untouched;
otherwise the job is marked cancelled with `completedAt` stamped, and its
entry is removed from the running registry (its cancel function invoked). -/
def CancelJob (jobs : List Job) (running : List String) (id : String)
    (now : Int) : Except String Unit × List Job × List String :=
  match jobs.find? (fun j => j.id = id) with
  | none => (Except.error ("job not found: " ++ id), jobs, running)
  | some j =>
    if j.IsComplete then
      (Except.error ("job already completed: " ++ id), jobs, running)
    else
      (Except.ok (),
       jobs.map (fun k =>
         if k.id = id then
           { k with status := JobStatus.cancelled, completedAt := some now }
         else k),
       running.filter (fun r => r ≠ id))

/-- TTL expiry test: `job.CreatedAt.Add(job.TTL).Before(now)`. -/
def expired (now : Int) (j : Job) : Bool :=
  j.createdAt + j.ttl < now

/-- One pass of the source's bubble sort over adjacent pairs, swapping when
the left job was created after (`>` on `createdAt`) the right one. The
carried element `a` is the left member of the pair under comparison. -/
def bubblePassGo (a : Job) : List Job → List Job
  | [] => [a]
  | b :: rest =>
    if b.createdAt < a.createdAt then b :: bubblePassGo a rest
    else a :: bubblePassGo b rest

def bubblePass : List Job → List Job
  | [] => []
  | a :: rest => bubblePassGo a rest

/-- Iterated bubble passes (the outer loop of the source's bubble sort). -/
def bubblePassIter : Nat → List Job → List Job
  | 0, l => l
  | n + 1, l => bubblePassIter n (bubblePass l)

/-- The source's bubble sort by creation time, oldest first: `len - 1`
passes of adjacent swaps. -/
def bubbleSortByCreatedAt (l : List Job) : List Job :=
  bubblePassIter (l.length - 1) l

/-- Embedding of `Manager.cleanupExpiredJobs`: collect the ids of TTL-expired jobs; if the
table size (before any removal) exceeds `maxHistorySize`, also collect the
ids of the `size - maxHistorySize` oldest-created jobs; then delete every
collected id from the table. -/
def cleanupExpiredJobs (maxHistorySize : Nat) (now : Int)
    (jobs : List Job) : List Job :=
  let ttlIds := (jobs.filter (expired now)).map Job.id
  let toDelete :=
    if maxHistorySize < jobs.length then
      ttlIds ++
        ((bubbleSortByCreatedAt jobs).take (jobs.length - maxHistorySize)).map
          Job.id
    else ttlIds
  jobs.filter (fun j => !toDelete.contains j.id)

/-- Modelled from the spec (for the refinement comparison in C3): each sweep
"(a) remove all jobs whose `createdAt + ttl` has passed; (b) if the
remaining count still exceeds `maxHistorySize`, remove the oldest-created
jobs (by `createdAt`, ascending) until the cap is met". -/
def cleanupSpecC3 (maxHistorySize : Nat) (now : Int)
    (jobs : List Job) : List Job :=
  let remaining := jobs.filter (fun j => ¬ expired now j)
  if maxHistorySize < remaining.length then
    let oldestIds :=
      ((bubbleSortByCreatedAt remaining).take
        (remaining.length - maxHistorySize)).map Job.id
    remaining.filter (fun j => !oldestIds.contains j.id)
  else remaining

/-! ### Webhook sender (`webhooks` package)

Bytes are `Nat` values below 256. `crypto/sha256`, `crypto/hmac` and
`encoding/hex` from the Go standard library are embedded as executable
Lean functions. -/

/-- Right rotation of a 32-bit word. -/
def rotr32 (n x : Nat) : Nat :=
  ((x >>> n) ||| (x <<< (32 - n))) % 2 ^ 32

def smallSigma0 (x : Nat) : Nat := rotr32 7 x ^^^ rotr32 18 x ^^^ (x >>> 3)

def smallSigma1 (x : Nat) : Nat := rotr32 17 x ^^^ rotr32 19 x ^^^ (x >>> 10)

def bigSigma0 (x : Nat) : Nat := rotr32 2 x ^^^ rotr32 13 x ^^^ rotr32 22 x

def bigSigma1 (x : Nat) : Nat := rotr32 6 x ^^^ rotr32 11 x ^^^ rotr32 25 x

/-- The SHA-256 round constants. -/
def sha256K : List Nat :=
  [1116352408, 1899447441, 3049323471, 3921009573,
   961987163, 1508970993, 2453635748, 2870763221,
   3624381080, 310598401, 607225278, 1426881987,
   1925078388, 2162078206, 2614888103, 3248222580,
   3835390401, 4022224774, 264347078, 604807628,
   770255983, 1249150122, 1555081692, 1996064986,
   2554220882, 2821834349, 2952996808, 3210313671,
   3336571891, 3584528711, 113926993, 338241895,
   666307205, 773529912, 1294757372, 1396182291,
   1695183700, 1986661051, 2177026350, 2456956037,
   2730485921, 2820302411, 3259730800, 3345764771,
   3516065817, 3600352804, 4094571909, 275423344,
   430227734, 506948616, 659060556, 883997877,
   958139571, 1322822218, 1537002063, 1747873779,
   1955562222, 2024104815, 2227730452, 2361852424,
   2428436474, 2756734187, 3204031479, 3329325298]

/-- The SHA-256 initial hash words. -/
def sha256H0 : List Nat :=
  [1779033703, 3144134277, 1013904242, 2773480762,
   1359893119, 2600822924, 528734635, 1541459225]

/-- Big-endian packing of bytes into 32-bit words. -/
def toWords : List Nat → List Nat
  | b0 :: b1 :: b2 :: b3 :: rest =>
    (b0 * 2 ^ 24 + b1 * 2 ^ 16 + b2 * 2 ^ 8 + b3) :: toWords rest
  | _ => []

/-- Big-endian unpacking of a 32-bit word into four bytes. -/
def wordToBytes (w : Nat) : List Nat :=
  [w / 2 ^ 24 % 256, w / 2 ^ 16 % 256, w / 2 ^ 8 % 256, w % 256]

/-- Extend the 16-word message schedule to 64 words. -/
def buildSchedule : List Nat → Nat → List Nat
  | w, 0 => w
  | w, n + 1 =>
    let t :=
      (smallSigma1 (w.getD (w.length - 2) 0) + w.getD (w.length - 7) 0 +
        smallSigma0 (w.getD (w.length - 15) 0) + w.getD (w.length - 16) 0)
        % 2 ^ 32
    buildSchedule (w ++ [t]) n

/-- One SHA-256 compression round on the eight working words. -/
def sha256Round (st : List Nat) (k w : Nat) : List Nat :=
  match st with
  | [a, b, c, d, e, f, g, h] =>
    let ch := (e &&& f) ^^^ ((e ^^^ (2 ^ 32 - 1)) &&& g)
    let maj := (a &&& b) ^^^ (a &&& c) ^^^ (b &&& c)
    let t1 := (h + bigSigma1 e + ch + k + w) % 2 ^ 32
    let t2 := (bigSigma0 a + maj) % 2 ^ 32
    [(t1 + t2) % 2 ^ 32, a, b, c, (d + t1) % 2 ^ 32, e, f, g]
  | other => other

/-- Compress one 64-byte block into the running hash words. -/
def compressBlock (h : List Nat) (block : List Nat) : List Nat :=
  let w := buildSchedule (toWords block) 48
  let final := (List.range 64).foldl
    (fun st i => sha256Round st (sha256K.getD i 0) (w.getD i 0)) h
  (h.zip final).map (fun p => (p.1 + p.2) % 2 ^ 32)

/-- Split a byte list into 64-byte blocks (fuel-indexed helper). -/
def chunks64Go : Nat → List Nat → List (List Nat)
  | 0, _ => []
  | _, [] => []
  | fuel + 1, l => l.take 64 :: chunks64Go fuel (l.drop 64)

def chunks64 (l : List Nat) : List (List Nat) :=
  chunks64Go l.length l

/-- SHA-256 of a byte list (`crypto/sha256`). -/
def sha256 (msg : List Nat) : List Nat :=
  let L := msg.length
  let zeros := (64 - (L + 9) % 64) % 64
  let bitLen := L * 8
  let lenBytes :=
    [bitLen / 2 ^ 56 % 256, bitLen / 2 ^ 48 % 256, bitLen / 2 ^ 40 % 256,
     bitLen / 2 ^ 32 % 256, bitLen / 2 ^ 24 % 256, bitLen / 2 ^ 16 % 256,
     bitLen / 2 ^ 8 % 256, bitLen % 256]
  let padded := msg ++ 0x80 :: (List.replicate zeros 0 ++ lenBytes)
  ((chunks64 padded).foldl compressBlock sha256H0).flatMap wordToBytes

/-- HMAC-SHA256 (`crypto/hmac` with a SHA-256 block size of 64 bytes). -/
def hmacSha256 (key msg : List Nat) : List Nat :=
  let k1 := if 64 < key.length then sha256 key else key
  let k2 := k1 ++ List.replicate (64 - k1.length) 0
  let ipad := k2.map (fun b => b ^^^ 0x36)
  let opad := k2.map (fun b => b ^^^ 0x5c)
  sha256 (opad ++ sha256 (ipad ++ msg))

/-- UTF-8 bytes of a string. -/
def strBytes (s : String) : List Nat :=
  s.toUTF8.toList.map (fun b => b.toNat)

/-- Lowercase hexadecimal digit for a value below 16
(`encoding/hex` alphabet). -/
def hexDigit (n : Nat) : Char :=
  if n < 10 then Char.ofNat (48 + n) else Char.ofNat (87 + n)

/-- Lowercase hex encoding of a byte list (`hex.EncodeToString`). -/
def hexEncode (bs : List Nat) : String :=
  String.mk ((bs.map (fun b => [hexDigit (b / 16), hexDigit (b % 16)])).flatten)

/-- Embedding of `Sender.generateSignature`: HMAC-SHA256, keyed by the configured
secret, of the string `"{timestamp}.{payload}"`, rendered as
`sha256=<lowercase hex>`. -/
def generateSignature (secret : String) (payload : String)
    (timestamp : Int) : String :=
  let message := toString timestamp ++ "." ++ payload
  "sha256=" ++ hexEncode (hmacSha256 (strBytes secret) (strBytes message))

/-- The webhook payload struct `JobStatusUpdate`. Times are rendered
abstractly as integers by the JSON model. -/
structure JobStatusUpdate where
  jobID : String
  status : String
  completedAt : Option Int
  output : String
  error : String
  exitCode : Option Int
  metadata : List (String × String)
deriving DecidableEq, Repr

/-- Model of Go JSON string escaping for the characters that need it here
(quote and backslash). -/
def jsonEscapeChar (c : Char) : List Char :=
  if c = '"' then ['\\', '"']
  else if c = '\\' then ['\\', '\\']
  else [c]

def jsonString (s : String) : String :=
  "\"" ++ String.mk (s.data.flatMap jsonEscapeChar) ++ "\""

def marshalMeta (m : List (String × String)) : String :=
  "\x7b" ++
    String.intercalate ","
      (m.map (fun p => jsonString p.1 ++ ":" ++ jsonString p.2)) ++
  "\x7d"

/-- Embedding of `json.Marshal` on a `JobStatusUpdate`: fields in struct order with
`omitempty` on `completed_at`, `output`, `error`, `exit_code` and
`metadata`. -/
def marshalUpdate (u : JobStatusUpdate) : String :=
  "\x7b" ++ "\"job_id\":" ++ jsonString u.jobID ++
  ",\"status\":" ++ jsonString u.status ++
  (match u.completedAt with
   | some t => ",\"completed_at\":" ++ toString t
   | none => "") ++
  (if u.output = "" then "" else ",\"output\":" ++ jsonString u.output) ++
  (if u.error = "" then "" else ",\"error\":" ++ jsonString u.error) ++
  (match u.exitCode with
   | some c => ",\"exit_code\":" ++ toString c
   | none => "") ++
  (if u.metadata.isEmpty then ""
   else ",\"metadata\":" ++ marshalMeta u.metadata) ++
  "\x7d"

/-- The observable parts of the HTTP POST built by `Sender.sendWebhook`. -/
structure WebhookRequest where
  url : String
  body : String
  headers : List (String × String)
deriving DecidableEq, Repr

def headerLookup (r : WebhookRequest) (name : String) : Option String :=
  (r.headers.find? (fun h => h.1 = name)).map Prod.snd

/-- Embedding of `Sender.sendWebhook`, request-construction part: marshal the payload,
set the fixed headers and the timestamp header, and add the signature
header exactly when a secret is configured. -/
def sendWebhook (secret : String) (url : String) (update : JobStatusUpdate)
    (timestamp : Int) : WebhookRequest :=
  let payload := marshalUpdate update
  { url := url
    body := payload
    headers :=
      [("Content-Type", "application/json"),
       ("User-Agent", "plandex-cli-api/1.0"),
       ("X-Webhook-Timestamp", toString timestamp)] ++
      (if secret = "" then []
       else [("X-Webhook-Signature", generateSignature secret payload timestamp)]) }

/-- Observable events of `Sender.Send`: a delivery attempt (with its 0-based
loop index and whether the endpoint accepted it) or a backoff sleep of a
given duration. -/
inductive SendEvent
  | attempt (n : Nat) (ok : Bool)
  | sleep (d : Int)
deriving DecidableEq, Repr

/-- The retry loop of `Sender.Send`, one iteration per remaining attempt.
`resp i` tells whether attempt `i` succeeds (2xx response); on failure with
retries remaining the sender sleeps `retryBackoff * (attempt + 1)` and goes
round again; on success it breaks out. -/
def sendGo (retryBackoff : Int) (resp : Nat → Bool) :
    Nat → Nat → List SendEvent
  | _, 0 => []
  | attempt, remaining + 1 =>
    if resp attempt then [SendEvent.attempt attempt true]
    else
      SendEvent.attempt attempt false ::
        (if remaining = 0 then []
         else SendEvent.sleep (retryBackoff * ((attempt : Int) + 1)) ::
           sendGo retryBackoff resp (attempt + 1) remaining)

/-- Embedding of `Sender.Send`: nothing at all when webhooks are disabled, otherwise the
retry loop with `maxRetries + 1` available attempts. The jobs table is
passed through untouched — the sender has no access to it. -/
def SenderSend (enabled : Bool) (maxRetries : Nat) (retryBackoff : Int)
    (resp : Nat → Bool) (jobs : List Job) : List SendEvent × List Job :=
  if enabled then (sendGo retryBackoff resp 0 (maxRetries + 1), jobs)
  else ([], jobs)

def numAttempts (tr : List SendEvent) : Nat :=
  (tr.filter (fun e => match e with
    | SendEvent.attempt _ _ => true
    | SendEvent.sleep _ => false)).length

/-! ### Interleaved dispatcher / cancel semantics (`Manager.executeJob`,
`Manager.CancelJob`)

`executeJob` runs as a goroutine; `CancelJob` may be called concurrently.
Every critical section (a region holding `jobsMutex` or `runningMutex`)
is one atomic step. The state tracks the single job the goroutine owns,
the goroutine's program counter, whether the job id is in the `running`
registry, and whether the external executor was ever invoked. -/

/-- Result of the external executor capability
(`executor.Execute -> (output, error, exitCode)`). -/
structure ExecResult where
  output : String
  error : String
  exitCode : Int
deriving DecidableEq, Repr

/-- Program counter of the `executeJob` goroutine. The executor's outcome
(a result and/or a Go error) travels in the program counter from the
`execute` step to the `commit` step. -/
inductive PC
  | start
  | acquired
  | marked
  | registered
  | executed (result : Option ExecResult) (err : Option String)
  | unregistered (result : Option ExecResult) (err : Option String)
  | done
  | aborted
deriving DecidableEq, Repr

structure SysState where
  job : Job
  pc : PC
  registered : Bool
  execInvoked : Bool
deriving DecidableEq, Repr

/-- Atomic actions: the dispatcher's steps in program order, plus an
external `CancelJob` call which may interleave anywhere. -/
inductive Act
  | acquire
  | shutdownAbort
  | markRunning (now : Int)
  | register
  | execute (result : Option ExecResult) (err : Option String)
  | unregister
  | commit (now : Int)
  | cancel (now : Int)
deriving DecidableEq, Repr

/-- Lines 216–249 of `manager.go`: fold the executor's error output into
the job output, stamp `completedAt`, and set `failed` (non-nil error or
non-zero exit code) or `completed`. No cancellation check happens here. -/
def commitJob (j : Job) (result : Option ExecResult) (err : Option String)
    (now : Int) : Job :=
  let output : String :=
    match result with
    | none => ""
    | some r =>
      if r.error = "" then r.output
      else if r.output = "" then r.error
      else r.output ++ "\n" ++ r.error
  let j1 := { j with completedAt := some now, output := output }
  if err.isSome || (match result with
      | some r => r.exitCode != 0
      | none => false) then
    { j1 with
      status := JobStatus.failed
      error := match err with | some e => e | none => j1.error
      exitCode := match result with
        | some r => some r.exitCode
        | none => some 1 }
  else
    { j1 with status := JobStatus.completed, exitCode := some 0 }

/-- One atomic step. `none` means the action is not enabled in the current
state (the goroutine is elsewhere in its program). `cancel` mirrors
`Manager.CancelJob` on the goroutine's own job: a no-op (error return) when
the job is already complete, otherwise it marks the job cancelled, stamps
`completedAt`, and revokes/unregisters any running-registry entry. -/
def step (s : SysState) : Act → Option SysState
  | Act.acquire =>
    if s.pc = PC.start then some { s with pc := PC.acquired } else none
  | Act.shutdownAbort =>
    if s.pc = PC.start then some { s with pc := PC.aborted } else none
  | Act.markRunning now =>
    if s.pc = PC.acquired then
      if s.job.status = JobStatus.cancelled then
        some { s with pc := PC.aborted }
      else
        some { s with
          pc := PC.marked
          job := { s.job with
            status := JobStatus.running, startedAt := some now } }
    else none
  | Act.register =>
    if s.pc = PC.marked then
      some { s with pc := PC.registered, registered := true }
    else none
  | Act.execute result err =>
    if s.pc = PC.registered then
      some { s with pc := PC.executed result err, execInvoked := true }
    else none
  | Act.unregister =>
    match s.pc with
    | PC.executed result err =>
      some { s with pc := PC.unregistered result err, registered := false }
    | _ => none
  | Act.commit now =>
    match s.pc with
    | PC.unregistered result err =>
      some { s with pc := PC.done, job := commitJob s.job result err now }
    | _ => none
  | Act.cancel now =>
    if s.job.IsComplete then some s
    else
      some { s with
        job := { s.job with
          status := JobStatus.cancelled, completedAt := some now }
        registered := false }

/-- Run a sequence of actions; `none` when some action was not enabled. -/
def run (s : SysState) : List Act → Option SysState
  | [] => some s
  | a :: as =>
    match step s a with
    | none => none
    | some s' => run s' as

/-- The observed status sequence along an action sequence (cut off at the
first non-enabled action). -/
def statusTrace (s : SysState) : List Act → List JobStatus
  | [] => [s.job.status]
  | a :: as =>
    match step s a with
    | none => [s.job.status]
    | some s' => s.job.status :: statusTrace s' as

/-- The initial state of the `executeJob` goroutine for a freshly created
job: the job as `CreateJob` built it (status pending), goroutine at its
entry point, not registered, executor not invoked. -/
def initSys (req : JobRequest) (newId : String) (now : Int)
    (defaultTTL : Int) : SysState :=
  { job :=
      { id := newId
        command := req.command
        args := req.args
        status := JobStatus.pending
        createdAt := now
        startedAt := none
        completedAt := none
        output := ""
        error := ""
        exitCode := none
        metadata := req.metadata
        webhookURL := req.webhookURL
        ttl := match req.ttl with | some t => t | none => defaultTTL }
    pc := PC.start
    registered := false
    execInvoked := false }

/-- The status transition relation the spec claims (C1 as stated):
`pending → running → (completed|failed)` or `(pending|running) → cancelled`,
plus stuttering; no edge leaves a terminal status. -/
def specStatusStep : JobStatus → JobStatus → Bool
  | a, b =>
    a = b ∨
    (a = JobStatus.pending ∧ b = JobStatus.running) ∨
    (a = JobStatus.running ∧ b = JobStatus.completed) ∨
    (a = JobStatus.running ∧ b = JobStatus.failed) ∨
    (a = JobStatus.pending ∧ b = JobStatus.cancelled) ∨
    (a = JobStatus.running ∧ b = JobStatus.cancelled)

/-- The status transition relation the code actually guarantees: the spec's
edges plus `cancelled → (completed|failed)` (a dispatcher commit racing a
cancellation overwrites the cancelled terminal state). `completed` and
`failed` still have no outgoing edges. -/
def codeStatusStep : JobStatus → JobStatus → Bool
  | a, b =>
    specStatusStep a b ∨
    (a = JobStatus.cancelled ∧ b = JobStatus.completed) ∨
    (a = JobStatus.cancelled ∧ b = JobStatus.failed)

/-- The dispatcher invariant tying the goroutine's program counter to the
job status: before `markRunning` the job is pending (or already cancelled),
between `markRunning` and `commit` it is running (or cancelled by a
concurrent `CancelJob`), after `commit` it is completed or failed; the
executor has not been invoked before the `execute` step. -/
def Inv (s : SysState) : Prop :=
  match s.pc with
  | PC.start | PC.acquired =>
    (s.job.status = JobStatus.pending ∨ s.job.status = JobStatus.cancelled) ∧
      s.execInvoked = false
  | PC.marked | PC.registered =>
    (s.job.status = JobStatus.running ∨ s.job.status = JobStatus.cancelled) ∧
      s.execInvoked = false
  | PC.executed _ _ | PC.unregistered _ _ =>
    s.job.status = JobStatus.running ∨ s.job.status = JobStatus.cancelled
  | PC.done =>
    s.job.status = JobStatus.completed ∨ s.job.status = JobStatus.failed
  | PC.aborted => s.execInvoked = false

/-- A job cancelled before dispatch got past the pre-cancellation check:
the goroutine can only abort, so the status stays cancelled and the
executor is never invoked. -/
def CancelledStuck (s : SysState) : Prop :=
  s.job.status = JobStatus.cancelled ∧ s.execInvoked = false ∧
    (s.pc = PC.start ∨ s.pc = PC.acquired ∨ s.pc = PC.aborted)

/-- Executable chain check: `chainOK r l` holds when every pair of
consecutive entries of `l` is related by `r`. -/
def chainOK (r : JobStatus → JobStatus → Bool) : List JobStatus → Bool
  | a :: b :: rest => r a b && chainOK r (b :: rest)
  | _ => true

/-! ### Concrete inputs used by counterexamples and witnesses -/

/-- A job with the given id, creation time, ttl and status; the remaining
fields as `CreateJob` initialises them. -/
def exJob (id : String) (created : Int) (ttl : Int) (st : JobStatus) : Job :=
  { id := id
    command := "tell"
    args := []
    status := st
    createdAt := created
    startedAt := none
    completedAt := none
    output := ""
    error := ""
    exitCode := none
    metadata := []
    webhookURL := ""
    ttl := ttl }

/-- Three jobs: "B" is TTL-expired at time 10, "A" and "C" are not;
"A" is the oldest-created. -/
def c3Jobs : List Job :=
  [exJob "A" 0 100 JobStatus.completed,
   exJob "B" 1 0 JobStatus.completed,
   exJob "C" 2 100 JobStatus.completed]

/-- A plain valid job request. -/
def req0 : JobRequest :=
  { command := "tell", args := [], metadata := [], webhookURL := "",
    ttl := none }

/-- A request with a command outside the allow-list. -/
def reqBad : JobRequest :=
  { command := "rm-rf", args := [], metadata := [], webhookURL := "",
    ttl := none }

/-- The racing interleaving: the job is dispatched and marked running,
`CancelJob` lands (status becomes cancelled, `completedAt := 2`), the
executor returns a context-cancellation error, and the dispatcher commits
the execution result anyway. -/
def badActs : List Act :=
  [Act.acquire, Act.markRunning 1, Act.register, Act.cancel 2,
   Act.execute none (some "context canceled"), Act.unregister, Act.commit 3]

/-- The state reached from `initSys req0 "j1" 0 100` by a `CancelJob` at
time 5 followed by the dispatcher acquiring its slot and hitting the
pre-cancellation check. -/
def sC7final : SysState :=
  { job :=
      { id := "j1"
        command := "tell"
        args := []
        status := JobStatus.cancelled
        createdAt := 0
        startedAt := none
        completedAt := some 5
        output := ""
        error := ""
        exitCode := none
        metadata := []
        webhookURL := ""
        ttl := 100 }
    pc := PC.aborted
    registered := false
    execInvoked := false }

/-- A sample webhook payload. -/
def upd0 : JobStatusUpdate :=
  { jobID := "j1", status := "completed", completedAt := some 9,
    output := "ok", error := "", exitCode := some 0, metadata := [] }

/-- The lowercase hexadecimal alphabet of `encoding/hex`. -/
def lowercaseHexChars : List Char :=
  "0123456789abcdef".data

/-! ## Theorems -/

/-- C8: a request whose command is not in the allow-list is rejected
synchronously with the "invalid command" error, the store is unchanged, and
if no stored job had that command before, no `GetJob` can observe a job
with that command afterwards. -/
theorem createJob_rejects_disallowed (jobs : List Job) (req : JobRequest)
    (newId : String) (now defaultTTL : Int)
    (h : req.command ∉ allowedCommands) :
    (CreateJob jobs req newId now defaultTTL).1 =
      Except.error
        ("invalid command: " ++ ("command not allowed: " ++ req.command)) ∧
    (CreateJob jobs req newId now defaultTTL).2 = jobs ∧
    ((∀ k ∈ jobs, k.command ≠ req.command) →
      ∀ id j, GetJob (CreateJob jobs req newId now defaultTTL).2 id =
          Except.ok j →
        j.command ≠ req.command) := by
  have hv : validateCommand req.command =
      Except.error ("command not allowed: " ++ req.command) := by
    unfold validateCommand
    rw [if_neg h]
  refine ⟨?_, ?_, ?_⟩
  · simp [CreateJob, hv]
  · simp [CreateJob, hv]
  · intro hno id j hget
    have hstore : (CreateJob jobs req newId now defaultTTL).2 = jobs := by
      simp [CreateJob, hv]
    rw [hstore] at hget
    unfold GetJob at hget
    cases hfind : jobs.find? (fun k => k.id = id) with
    | none => rw [hfind] at hget; exact absurd hget (by simp)
    | some k =>
      rw [hfind] at hget
      have hk : k ∈ jobs := List.mem_of_find?_eq_some hfind
      have : k = j := by
        have := hget
        simpa using this
      exact this ▸ hno k hk

/-- C8 witness: rejecting the disallowed command `"rm-rf"` on an empty
store. -/
theorem createJob_rejects_disallowed_witness :
    (CreateJob [] reqBad "j1" 0 100).1 =
      Except.error
        ("invalid command: " ++ ("command not allowed: " ++ reqBad.command)) ∧
    (CreateJob [] reqBad "j1" 0 100).2 = [] :=
  ⟨(createJob_rejects_disallowed [] reqBad "j1" 0 100 (by decide)).1,
   (createJob_rejects_disallowed [] reqBad "j1" 0 100 (by decide)).2.1⟩

/-- C9: `CancelJob` on a job already terminal returns the
"job already completed" error and leaves the job table — and with it the
job's status, `completedAt`, output, error and exit code — and the running
registry untouched. -/
theorem cancelJob_terminal_noop (jobs : List Job) (running : List String)
    (id : String) (now : Int) (j : Job)
    (hf : jobs.find? (fun k => k.id = id) = some j)
    (hc : j.IsComplete = true) :
    CancelJob jobs running id now =
      (Except.error ("job already completed: " ++ id), jobs, running) := by
  unfold CancelJob
  rw [hf]
  simp [hc]

/-- C9 witness: cancelling a completed job leaves its record intact. -/
theorem cancelJob_terminal_noop_witness :
    CancelJob [exJob "D" 0 100 JobStatus.completed] ["x"] "D" 7 =
      (Except.error ("job already completed: " ++ "D"),
       [exJob "D" 0 100 JobStatus.completed], ["x"]) :=
  cancelJob_terminal_noop [exJob "D" 0 100 JobStatus.completed] ["x"] "D" 7
    (exJob "D" 0 100 JobStatus.completed) (by decide) (by decide)

/-- C10: with webhooks disabled, `Sender.Send` returns immediately: no
delivery attempt for any url/update, and the job table is untouched. -/
theorem send_disabled_no_attempts (maxRetries : Nat) (retryBackoff : Int)
    (resp : Nat → Bool) (jobs : List Job) :
    SenderSend false maxRetries retryBackoff resp jobs = ([], jobs) ∧
    numAttempts (SenderSend false maxRetries retryBackoff resp jobs).1 = 0 := by
  constructor <;> simp [SenderSend, numAttempts]

/-- C1 counterexample: a fully enabled interleaving — dispatch, mark
running, `CancelJob`, executor returns, dispatcher commits — whose observed
status sequence (`pending, running, cancelled, failed`) is not a path of
the spec's transition relation: the terminal `cancelled` is overwritten. -/
theorem dispatch_overwrites_cancelled_status :
    (run (initSys req0 "j1" 0 100) badActs).isSome = true ∧
    chainOK specStatusStep
        (statusTrace (initSys req0 "j1" 0 100) badActs) = false := by
  constructor
  · decide
  · decide

/-- C2: the racing interleaving evaluated. After `markRunning` the job is
running; `CancelJob` lands before the dispatcher's terminal commit (status
becomes cancelled); the dispatcher then commits the execution result and
the final status is `failed`, not `cancelled` — cancellation loses the
race that the spec says it must win. -/
theorem commit_after_cancel_yields_failed :
    (run (initSys req0 "j1" 0 100)
        [Act.acquire, Act.markRunning 1, Act.register]).map
      (fun s => s.job.status) = some JobStatus.running ∧
    (run (initSys req0 "j1" 0 100)
        [Act.acquire, Act.markRunning 1, Act.register, Act.cancel 2]).map
      (fun s => s.job.status) = some JobStatus.cancelled ∧
    (run (initSys req0 "j1" 0 100) badActs).map (fun s => s.job.status) =
      some JobStatus.failed := by
  refine ⟨rfl, rfl, rfl⟩

/-- C3 counterexample: at `maxHistorySize = 2`, with "B" TTL-expired and
two unexpired jobs remaining, the spec's sweep keeps `["A", "C"]` (the
post-removal count does not exceed the cap), but the code — which compares
the cap against the pre-removal count of 3 — also evicts the oldest job
"A". -/
theorem cleanup_differs_from_spec_sweep :
    (cleanupExpiredJobs 2 10 c3Jobs).map Job.id = ["C"] ∧
    (cleanupSpecC3 2 10 c3Jobs).map Job.id = ["A", "C"] := by
  constructor <;> decide

/-- C4 counterexample: a TTL-expired job whose status is `running` is
removed by the sweep. -/
theorem cleanup_removes_running_job :
    (exJob "R" 0 0 JobStatus.running).status = JobStatus.running ∧
    expired 10 (exJob "R" 0 0 JobStatus.running) = true ∧
    cleanupExpiredJobs 5 10 [exJob "R" 0 0 JobStatus.running] = [] := by
  refine ⟨rfl, rfl, by decide⟩

/-- C4 amended: the sweep ignores job status entirely — a running job whose
TTL has expired is removed in the same sweep, not deferred. -/
theorem cleanup_evicts_expired_regardless_of_status
    (maxHistorySize : Nat) (now : Int) (jobs : List Job) (j : Job)
    (hmem : j ∈ jobs) (_hst : j.status = JobStatus.running)
    (hexp : expired now j = true) :
    j ∉ cleanupExpiredJobs maxHistorySize now jobs := by
  intro hcontra
  simp only [cleanupExpiredJobs] at hcontra
  have hpred := (List.mem_filter.mp hcontra).2
  have hid : j.id ∈ (jobs.filter (expired now)).map Job.id :=
    List.mem_map.mpr ⟨j, List.mem_filter.mpr ⟨hmem, hexp⟩, rfl⟩
  by_cases hcap : maxHistorySize < jobs.length
  · rw [if_pos hcap] at hpred
    simp only [Bool.not_eq_true'] at hpred
    exact absurd (List.elem_iff.mpr (List.mem_append_left _ hid))
      (by simp [List.contains] at hpred ⊢; exact hpred)
  · rw [if_neg hcap] at hpred
    simp only [Bool.not_eq_true'] at hpred
    exact absurd (List.elem_iff.mpr hid)
      (by simp [List.contains] at hpred ⊢; exact hpred)

/-- C4 amended witness: the expired running job from the counterexample is
indeed gone after the sweep. -/
theorem cleanup_evicts_expired_regardless_of_status_witness :
    exJob "R" 0 0 JobStatus.running ∉
      cleanupExpiredJobs 5 10 [exJob "R" 0 0 JobStatus.running] :=
  cleanup_evicts_expired_regardless_of_status 5 10
    [exJob "R" 0 0 JobStatus.running] (exJob "R" 0 0 JobStatus.running)
    (by decide) (by decide) (by decide)

/-- The dispatcher's terminal commit always produces `failed` or
`completed`, whatever the prior state. -/
theorem commitJob_status (j : Job) (r : Option ExecResult)
    (e : Option String) (now : Int) :
    (commitJob j r e now).status = JobStatus.failed ∨
    (commitJob j r e now).status = JobStatus.completed := by
  cases hbc : (e.isSome || match r with
      | some x => x.exitCode != 0
      | none => false) with
  | false => exact Or.inr (by simp [commitJob, hbc])
  | true => exact Or.inl (by simp [commitJob, hbc])

/-- A job that is not complete is pending or running. -/
theorem status_of_not_complete (j : Job) (h : j.IsComplete = false) :
    j.status = JobStatus.pending ∨ j.status = JobStatus.running := by
  cases hst : j.status <;> simp [Job.IsComplete, hst] at h ⊢

/-- A cancelled job is complete. -/
theorem isComplete_of_cancelled (j : Job)
    (h : j.status = JobStatus.cancelled) : j.IsComplete = true := by
  simp [Job.IsComplete, h]

/-- Single-step preservation: every enabled atomic step keeps the
dispatcher invariant, and the status change it makes (if any) is an edge
of the code's transition relation. -/
theorem step_preserves (s : SysState) (a : Act) (s' : SysState)
    (hInv : Inv s) (hs : step s a = some s') :
    Inv s' ∧ codeStatusStep s.job.status s'.job.status = true := by
  cases a with
  | acquire =>
    simp only [step] at hs
    split at hs
    · next hpc =>
      cases hs
      rw [Inv, hpc] at hInv
      refine ⟨by simpa [Inv] using hInv, ?_⟩
      simp [codeStatusStep, specStatusStep]
    · exact absurd hs (by simp)
  | shutdownAbort =>
    simp only [step] at hs
    split at hs
    · next hpc =>
      cases hs
      rw [Inv, hpc] at hInv
      refine ⟨by simpa [Inv] using hInv.2, ?_⟩
      simp [codeStatusStep, specStatusStep]
    · exact absurd hs (by simp)
  | markRunning now =>
    simp only [step] at hs
    split at hs
    · next hpc =>
      rw [Inv, hpc] at hInv
      split at hs
      · next hcan =>
        cases hs
        refine ⟨by simpa [Inv] using hInv.2, ?_⟩
        simp [codeStatusStep, specStatusStep]
      · next hcan =>
        cases hs
        have hpend : s.job.status = JobStatus.pending := by
          rcases hInv.1 with h | h
          · exact h
          · exact absurd h hcan
        refine ⟨by simpa [Inv] using hInv.2, ?_⟩
        simp [codeStatusStep, specStatusStep, hpend]
    · exact absurd hs (by simp)
  | register =>
    simp only [step] at hs
    split at hs
    · next hpc =>
      cases hs
      rw [Inv, hpc] at hInv
      refine ⟨by simpa [Inv] using hInv, ?_⟩
      simp [codeStatusStep, specStatusStep]
    · exact absurd hs (by simp)
  | execute r e =>
    simp only [step] at hs
    split at hs
    · next hpc =>
      cases hs
      rw [Inv, hpc] at hInv
      refine ⟨by simpa [Inv] using hInv.1, ?_⟩
      simp [codeStatusStep, specStatusStep]
    · exact absurd hs (by simp)
  | unregister =>
    simp only [step] at hs
    split at hs
    · next r e hpc =>
      cases hs
      rw [Inv, hpc] at hInv
      refine ⟨by simpa [Inv] using hInv, ?_⟩
      simp [codeStatusStep, specStatusStep]
    · next hpc => exact absurd hs (by simp)
  | commit now =>
    simp only [step] at hs
    split at hs
    · next r e hpc =>
      cases hs
      rw [Inv, hpc] at hInv
      constructor
      · rcases commitJob_status s.job r e now with hc | hc <;>
          simp [Inv, hc]
      · rcases commitJob_status s.job r e now with hc | hc <;>
          rcases hInv with h | h <;>
          simp [codeStatusStep, specStatusStep, hc, h]
    · next hpc => exact absurd hs (by simp)
  | cancel now =>
    simp only [step] at hs
    split at hs
    · next hcomp =>
      cases hs
      exact ⟨hInv, by simp [codeStatusStep, specStatusStep]⟩
    · next hcomp =>
      cases hs
      have hnc : s.job.IsComplete = false := by
        revert hcomp
        cases s.job.IsComplete <;> simp
      have hpr := status_of_not_complete s.job hnc
      constructor
      · rw [Inv]
        rcases hpc : s.pc with _ | _ | _ | _ | ⟨r0, e0⟩ | ⟨r0, e0⟩ | _ | _ <;>
          rw [Inv, hpc] at hInv <;> simp_all [Job.IsComplete]
      · rcases hpr with h | h <;> simp [codeStatusStep, specStatusStep, h]

/-- The invariant holds along every enabled run. -/
theorem run_inv (acts : List Act) : ∀ s s', Inv s → run s acts = some s' →
    Inv s' := by
  induction acts with
  | nil =>
    intro s s' hInv hr
    simp only [run] at hr
    cases hr
    exact hInv
  | cons a as ih =>
    intro s s' hInv hr
    simp only [run] at hr
    cases hstep : step s a with
    | none => rw [hstep] at hr; exact absurd hr (by simp)
    | some s1 =>
      rw [hstep] at hr
      exact ih s1 s' (step_preserves s a s1 hInv hstep).1 hr

/-- A status trace always starts with the current status. -/
theorem statusTrace_head (s : SysState) (acts : List Act) :
    ∃ rest, statusTrace s acts = s.job.status :: rest := by
  cases acts with
  | nil => exact ⟨[], rfl⟩
  | cons a as =>
    simp only [statusTrace]
    cases step s a with
    | none => exact ⟨[], rfl⟩
    | some s' => exact ⟨_, rfl⟩

/-- Along any run from an invariant state, every consecutive pair of
observed statuses is an edge of the code's transition relation. -/
theorem statusTrace_chain (acts : List Act) : ∀ s, Inv s →
    chainOK codeStatusStep (statusTrace s acts) = true := by
  induction acts with
  | nil => intro s _; rfl
  | cons a as ih =>
    intro s hInv
    simp only [statusTrace]
    cases hstep : step s a with
    | none => rfl
    | some s' =>
      obtain ⟨hInv', hedge⟩ := step_preserves s a s' hInv hstep
      obtain ⟨rest, hr⟩ := statusTrace_head s' as
      have htail := ih s' hInv'
      show chainOK codeStatusStep (s.job.status :: statusTrace s' as) = true
      rw [hr] at htail ⊢
      simp only [chainOK, Bool.and_eq_true]
      exact ⟨hedge, htail⟩

/-- C1 amended: from a freshly created job, every interleaving of the
dispatcher's steps with concurrent `CancelJob` calls produces a status
sequence whose every step is either the spec's
`pending → running → (completed|failed)` / `(pending|running) → cancelled`,
or the additional `cancelled → (completed|failed)` overwrite that a commit
racing a cancellation performs; `completed` and `failed` are never left. -/
theorem executeJob_status_chain (req : JobRequest) (newId : String)
    (now defaultTTL : Int) (acts : List Act) :
    chainOK codeStatusStep
      (statusTrace (initSys req newId now defaultTTL) acts) = true :=
  statusTrace_chain acts (initSys req newId now defaultTTL)
    (by rw [Inv]; exact ⟨Or.inl rfl, rfl⟩)

/-- Once a job is cancelled while its goroutine is still before the
pre-cancellation check (or aborted), every further step keeps it
cancelled and keeps the executor uninvoked. -/
theorem cancelledStuck_step (s : SysState) (a : Act) (s' : SysState)
    (hP : CancelledStuck s) (hs : step s a = some s') : CancelledStuck s' := by
  obtain ⟨hcan, hexec, hpc⟩ := hP
  cases a with
  | acquire =>
    simp only [step] at hs
    split at hs
    · cases hs; exact ⟨hcan, hexec, Or.inr (Or.inl rfl)⟩
    · exact absurd hs (by simp)
  | shutdownAbort =>
    simp only [step] at hs
    split at hs
    · cases hs; exact ⟨hcan, hexec, Or.inr (Or.inr rfl)⟩
    · exact absurd hs (by simp)
  | markRunning now =>
    simp only [step, hcan] at hs
    split at hs
    · cases hs
      exact ⟨hcan, hexec, Or.inr (Or.inr rfl)⟩
    · exact absurd hs (by simp)
  | register =>
    simp only [step] at hs
    split at hs
    · next hmk =>
      rcases hpc with h | h | h <;> rw [hmk] at h <;> exact absurd h (by simp)
    · exact absurd hs (by simp)
  | execute r e =>
    simp only [step] at hs
    split at hs
    · next hmk =>
      rcases hpc with h | h | h <;> rw [hmk] at h <;> exact absurd h (by simp)
    · exact absurd hs (by simp)
  | unregister =>
    simp only [step] at hs
    rcases hpc with h | h | h <;> rw [h] at hs <;> exact absurd hs (by simp)
  | commit now =>
    simp only [step] at hs
    rcases hpc with h | h | h <;> rw [h] at hs <;> exact absurd hs (by simp)
  | cancel now =>
    simp only [step] at hs
    rw [if_pos (isComplete_of_cancelled s.job hcan)] at hs
    cases hs
    exact ⟨hcan, hexec, hpc⟩

/-- The predicate `CancelledStuck` is preserved by whole runs. -/
theorem cancelledStuck_run (acts : List Act) : ∀ s s', CancelledStuck s →
    run s acts = some s' → CancelledStuck s' := by
  induction acts with
  | nil =>
    intro s s' hP hr
    simp only [run] at hr
    cases hr
    exact hP
  | cons a as ih =>
    intro s s' hP hr
    simp only [run] at hr
    cases hstep : step s a with
    | none => rw [hstep] at hr; exact absurd hr (by simp)
    | some s1 =>
      rw [hstep] at hr
      exact ih s1 s' (cancelledStuck_step s a s1 hP hstep) hr

/-- C7: if `CancelJob` reaches a job while it is still pending, the job
ends (and stays) cancelled and the executor's `Execute` capability is
never invoked: the dispatcher's pre-cancellation check makes it abort. -/
theorem cancel_pending_never_executes (req : JobRequest) (newId : String)
    (now defaultTTL : Int) (pre post : List Act) (t : Int)
    (s0 s1 : SysState)
    (h0 : run (initSys req newId now defaultTTL) pre = some s0)
    (hp : s0.job.status = JobStatus.pending)
    (h1 : run s0 (Act.cancel t :: post) = some s1) :
    s1.job.status = JobStatus.cancelled ∧ s1.execInvoked = false := by
  have hInv0 : Inv s0 :=
    run_inv pre (initSys req newId now defaultTTL) s0
      (by rw [Inv]; exact ⟨Or.inl rfl, rfl⟩) h0
  have hpcs : (s0.pc = PC.start ∨ s0.pc = PC.acquired ∨ s0.pc = PC.aborted) ∧
      s0.execInvoked = false := by
    rcases hpc : s0.pc with _ | _ | _ | _ | ⟨r0, e0⟩ | ⟨r0, e0⟩ | _ | _ <;>
      rw [Inv, hpc] at hInv0 <;> simp_all
  have hnc : s0.job.IsComplete = false := by
    simp [Job.IsComplete, hp]
  have hstep : step s0 (Act.cancel t) =
      some { s0 with
        job := { s0.job with
          status := JobStatus.cancelled, completedAt := some t }
        registered := false } := by
    simp only [step]
    rw [if_neg (by simp [hnc])]
  simp only [run] at h1
  rw [hstep] at h1
  have hP : CancelledStuck { s0 with
      job := { s0.job with
        status := JobStatus.cancelled, completedAt := some t }
      registered := false } :=
    ⟨rfl, hpcs.2, hpcs.1⟩
  obtain ⟨hc, he, _⟩ := cancelledStuck_run post _ s1 hP h1
  exact ⟨hc, he⟩

/-- C7 witness: cancel at time 5 before dispatch; the goroutine then
acquires its slot, hits the pre-cancellation check, and aborts. -/
theorem cancel_pending_never_executes_witness :
    sC7final.job.status = JobStatus.cancelled ∧
    sC7final.execInvoked = false :=
  cancel_pending_never_executes req0 "j1" 0 100 []
    [Act.acquire, Act.markRunning 6] 5 (initSys req0 "j1" 0 100) sC7final
    rfl rfl (by decide)

theorem numAttempts_cons_attempt (n : Nat) (ok : Bool)
    (tr : List SendEvent) :
    numAttempts (SendEvent.attempt n ok :: tr) = numAttempts tr + 1 := by
  simp [numAttempts]

theorem numAttempts_cons_sleep (d : Int) (tr : List SendEvent) :
    numAttempts (SendEvent.sleep d :: tr) = numAttempts tr := by
  simp [numAttempts]

/-- The retry loop makes at most `remaining` delivery attempts. -/
theorem sendGo_attempts_le (b : Int) (resp : Nat → Bool) :
    ∀ rem a, numAttempts (sendGo b resp a rem) ≤ rem := by
  intro rem
  induction rem with
  | zero => intro a; simp [sendGo, numAttempts]
  | succ n ih =>
    intro a
    simp only [sendGo]
    cases hr : resp a
    · rw [if_neg (by simp)]
      cases n with
      | zero =>
        rw [if_pos rfl]
        simp [numAttempts]
      | succ m =>
        rw [if_neg (Nat.succ_ne_zero m)]
        rw [numAttempts_cons_attempt, numAttempts_cons_sleep]
        exact Nat.add_le_add_right (ih (a + 1)) 1
    · rw [if_pos rfl]
      simp [numAttempts]

/-- Every sleep in the retry loop's trace follows a failed attempt `i`
with retries remaining and lasts `b * (i + 1)`. -/
theorem sendGo_sleep_mem (b : Int) (resp : Nat → Bool) :
    ∀ rem a d, SendEvent.sleep d ∈ sendGo b resp a rem →
      ∃ i, a ≤ i ∧ i + 1 < a + rem ∧ resp i = false ∧
        d = b * ((i : Int) + 1) := by
  intro rem
  induction rem with
  | zero => intro a d h; simp [sendGo] at h
  | succ n ih =>
    intro a d h
    simp only [sendGo] at h
    cases hr : resp a <;> rw [hr] at h
    · rw [if_neg (by simp)] at h
      cases n with
      | zero =>
        rw [if_pos rfl] at h
        rcases List.mem_cons.mp h with heq | h2
        · exact absurd heq (by simp)
        · simp at h2
      | succ m =>
        rw [if_neg (Nat.succ_ne_zero m)] at h
        rcases List.mem_cons.mp h with heq | h2
        · exact absurd heq (by simp)
        · rcases List.mem_cons.mp h2 with heq | h3
          · cases heq
            exact ⟨a, Nat.le_refl a, by omega, hr, rfl⟩
          · obtain ⟨i, hai, hbound, hri, hdi⟩ := ih (a + 1) d h3
            exact ⟨i, by omega, by omega, hri, hdi⟩
    · rw [if_pos rfl] at h
      rcases List.mem_cons.mp h with heq | h2
      · exact absurd heq (by simp)
      · simp at h2

/-- Every attempt event in the retry loop's trace carries the endpoint's
response for its index, stays within the attempt budget, and only happens
after all earlier attempts failed. -/
theorem sendGo_attempt_mem (b : Int) (resp : Nat → Bool) :
    ∀ rem a i ok, SendEvent.attempt i ok ∈ sendGo b resp a rem →
      a ≤ i ∧ i < a + rem ∧ ok = resp i ∧
        ∀ j, a ≤ j → j < i → resp j = false := by
  intro rem
  induction rem with
  | zero => intro a i ok h; simp [sendGo] at h
  | succ n ih =>
    intro a i ok h
    simp only [sendGo] at h
    cases hr : resp a <;> rw [hr] at h
    · rw [if_neg (by simp)] at h
      cases n with
      | zero =>
        rw [if_pos rfl] at h
        rcases List.mem_cons.mp h with heq | h2
        · cases heq
          exact ⟨Nat.le_refl a, by omega, hr.symm, fun j hj hji => by omega⟩
        · simp at h2
      | succ m =>
        rw [if_neg (Nat.succ_ne_zero m)] at h
        rcases List.mem_cons.mp h with heq | h2
        · cases heq
          exact ⟨Nat.le_refl a, by omega, hr.symm, fun j hj hji => by omega⟩
        · rcases List.mem_cons.mp h2 with heq | h3
          · exact absurd heq (by simp)
          · obtain ⟨hai, hbound, hok, hprev⟩ := ih (a + 1) i ok h3
            refine ⟨by omega, by omega, hok, fun j hj hji => ?_⟩
            rcases Nat.eq_or_lt_of_le hj with hja | hja
            · rw [← hja]; exact hr
            · exact hprev j hja hji
    · rw [if_pos rfl] at h
      rcases List.mem_cons.mp h with heq | h2
      · cases heq
        exact ⟨Nat.le_refl a, by omega, hr.symm, fun j hj hji => by omega⟩
      · simp at h2

/-- C6: with webhooks enabled, delivery is attempted at most
`maxRetries + 1` times; every backoff sleep follows a failed attempt `i`
(0-based, with `i < maxRetries`, so retries remained) and lasts
`retryBackoff * (i + 1)` — linear backoff with the attempt number starting
at 1; every attempt records the endpoint's response and happens only after
all earlier attempts failed; and the jobs table is never touched, whatever
the outcome. -/
theorem send_retry_policy (maxRetries : Nat) (retryBackoff : Int)
    (resp : Nat → Bool) (jobs : List Job) :
    numAttempts (SenderSend true maxRetries retryBackoff resp jobs).1 ≤
      maxRetries + 1 ∧
    (∀ d, SendEvent.sleep d ∈
        (SenderSend true maxRetries retryBackoff resp jobs).1 →
      ∃ i, i < maxRetries ∧ resp i = false ∧
        d = retryBackoff * ((i : Int) + 1)) ∧
    (∀ i ok, SendEvent.attempt i ok ∈
        (SenderSend true maxRetries retryBackoff resp jobs).1 →
      i ≤ maxRetries ∧ ok = resp i ∧ ∀ j, j < i → resp j = false) ∧
    (SenderSend true maxRetries retryBackoff resp jobs).2 = jobs := by
  refine ⟨?_, ?_, ?_, rfl⟩
  · exact sendGo_attempts_le retryBackoff resp (maxRetries + 1) 0
  · intro d h
    obtain ⟨i, _, hbound, hri, hdi⟩ :=
      sendGo_sleep_mem retryBackoff resp (maxRetries + 1) 0 d h
    exact ⟨i, by omega, hri, hdi⟩
  · intro i ok h
    obtain ⟨_, hbound, hok, hprev⟩ :=
      sendGo_attempt_mem retryBackoff resp (maxRetries + 1) 0 i ok h
    exact ⟨by omega, hok, fun j hj => hprev j (Nat.zero_le j) hj⟩

/-- C6 witness: one retry allowed, endpoint always failing — at most two
attempts are made. -/
theorem send_retry_policy_witness :
    numAttempts (SenderSend true 1 5 (fun _ => false) []).1 ≤ 2 :=
  (send_retry_policy 1 5 (fun _ => false) []).1

theorem wordToBytes_lt (w : Nat) : ∀ b ∈ wordToBytes w, b < 256 := by
  intro b hb
  simp only [wordToBytes, List.mem_cons, List.not_mem_nil, or_false] at hb
  rcases hb with h | h | h | h <;> subst h <;> omega

/-- SHA-256 digests consist of bytes. -/
theorem sha256_bytes_lt (msg : List Nat) : ∀ b ∈ sha256 msg, b < 256 := by
  intro b hb
  simp only [sha256, List.mem_flatMap] at hb
  obtain ⟨w, _, hw⟩ := hb
  exact wordToBytes_lt w b hw

/-- HMAC-SHA256 digests consist of bytes. -/
theorem hmacSha256_bytes_lt (key msg : List Nat) :
    ∀ b ∈ hmacSha256 key msg, b < 256 := by
  intro b hb
  simp only [hmacSha256] at hb
  exact sha256_bytes_lt _ b hb

theorem hexDigit_mem (n : Nat) (h : n < 16) :
    hexDigit n ∈ lowercaseHexChars := by
  interval_cases n <;> decide

/-- Hex encoding of a byte list uses only the lowercase hex alphabet. -/
theorem hexEncode_lowercase (bs : List Nat) (hb : ∀ b ∈ bs, b < 256) :
    ∀ c ∈ (hexEncode bs).data, c ∈ lowercaseHexChars := by
  intro c hc
  simp only [hexEncode, String.data, List.mem_flatten, List.mem_map] at hc
  obtain ⟨sub, ⟨b, hbmem, hsub⟩, hcsub⟩ := hc
  subst hsub
  have hblt := hb b hbmem
  rcases List.mem_cons.mp hcsub with h | h
  · subst h; exact hexDigit_mem _ (by omega)
  · rcases List.mem_cons.mp h with h2 | h2
    · subst h2; exact hexDigit_mem _ (by omega)
    · simp at h2

/-- C5: on every delivery attempt, when a non-empty secret is configured
the `X-Webhook-Signature` header is exactly `sha256=` followed by the
lowercase hex HMAC-SHA256, keyed by the secret, of
`"{timestamp}.{body}"` where the timestamp is the value sent in
`X-Webhook-Timestamp` and the body is the JSON POST body; with no secret
the signature header is absent. -/
theorem webhook_signature_spec (secret url : String) (u : JobStatusUpdate)
    (ts : Int) :
    (secret ≠ "" →
      headerLookup (sendWebhook secret url u ts) "X-Webhook-Signature" =
        some ("sha256=" ++
          hexEncode (hmacSha256 (strBytes secret)
            (strBytes (toString ts ++ "." ++
              (sendWebhook secret url u ts).body)))) ∧
      ∀ c ∈ (hexEncode (hmacSha256 (strBytes secret)
          (strBytes (toString ts ++ "." ++
            (sendWebhook secret url u ts).body)))).data,
        c ∈ lowercaseHexChars) ∧
    (secret = "" →
      headerLookup (sendWebhook secret url u ts) "X-Webhook-Signature" =
        none) ∧
    headerLookup (sendWebhook secret url u ts) "X-Webhook-Timestamp" =
      some (toString ts) := by
  refine ⟨fun hs => ⟨?_, ?_⟩, fun hs => ?_, ?_⟩
  · simp [sendWebhook, headerLookup, List.find?, hs, generateSignature]
  · exact hexEncode_lowercase _ (hmacSha256_bytes_lt _ _)
  · simp [sendWebhook, headerLookup, List.find?, hs]
  · by_cases hs : secret = "" <;>
      simp [sendWebhook, headerLookup, List.find?, hs]

/-- C5 witness: a concrete secret, payload and timestamp. -/
theorem webhook_signature_spec_witness :
    headerLookup (sendWebhook "sec" "http://h/x" upd0 9)
        "X-Webhook-Signature" =
      some ("sha256=" ++
        hexEncode (hmacSha256 (strBytes "sec")
          (strBytes (toString (9 : Int) ++ "." ++
            (sendWebhook "sec" "http://h/x" upd0 9).body)))) :=
  ((webhook_signature_spec "sec" "http://h/x" upd0 9).1 (by decide)).1

/-! ### Bubble sort correctness (for the eviction sweep) -/

theorem bubblePassGo_perm (l : List Job) :
    ∀ a, (bubblePassGo a l).Perm (a :: l) := by
  induction l with
  | nil => intro a; exact List.Perm.refl _
  | cons b rest ih =>
    intro a
    simp only [bubblePassGo]
    split
    · exact ((ih a).cons b).trans (List.Perm.swap a b rest)
    · exact (ih b).cons a

theorem bubblePass_perm (l : List Job) : (bubblePass l).Perm l := by
  cases l with
  | nil => exact List.Perm.refl _
  | cons a rest => exact bubblePassGo_perm rest a

theorem bubblePassIter_perm : ∀ (n : Nat) (l : List Job),
    (bubblePassIter n l).Perm l := by
  intro n
  induction n with
  | zero => intro l; exact List.Perm.refl _
  | succ k ih =>
    intro l
    exact (ih (bubblePass l)).trans (bubblePass_perm l)

/-- A bubble pass ends with a maximum of its input. -/
theorem bubblePassGo_max (l : List Job) : ∀ a, ∃ l2 m,
    bubblePassGo a l = l2 ++ [m] ∧
    ∀ x ∈ a :: l, x.createdAt ≤ m.createdAt := by
  induction l with
  | nil =>
    intro a
    exact ⟨[], a, rfl, by simp⟩
  | cons b rest ih =>
    intro a
    simp only [bubblePassGo]
    split
    · next hlt =>
      obtain ⟨l2, m, heq, hmax⟩ := ih a
      refine ⟨b :: l2, m, by rw [heq]; rfl, ?_⟩
      intro x hx
      rcases List.mem_cons.mp hx with rfl | hx2
      · exact hmax x (List.mem_cons_self x rest)
      · rcases List.mem_cons.mp hx2 with rfl | hx3
        · exact le_of_lt (lt_of_lt_of_le hlt
            (hmax a (List.mem_cons_self a rest)))
        · exact hmax x (List.mem_cons_of_mem a hx3)
    · next hge =>
      obtain ⟨l2, m, heq, hmax⟩ := ih b
      refine ⟨a :: l2, m, by rw [heq]; rfl, ?_⟩
      intro x hx
      rcases List.mem_cons.mp hx with rfl | hx2
      · exact le_trans (le_of_not_lt hge)
          (hmax b (List.mem_cons_self b rest))
      · exact hmax x hx2

/-- A bubble pass leaves a trailing maximum in place. -/
theorem bubblePassGo_append (mx : Job) :
    ∀ (l : List Job) (a : Job),
      (∀ x ∈ a :: l, x.createdAt ≤ mx.createdAt) →
      bubblePassGo a (l ++ [mx]) = bubblePassGo a l ++ [mx] := by
  intro l
  induction l with
  | nil =>
    intro a h
    simp only [List.nil_append, bubblePassGo]
    rw [if_neg (not_lt.mpr (h a (List.mem_cons_self a [])))]
    rfl
  | cons b rest ih =>
    intro a h
    show bubblePassGo a (b :: (rest ++ [mx])) =
      bubblePassGo a (b :: rest) ++ [mx]
    simp only [bubblePassGo]
    split
    · rw [ih a (fun x hx => by
        rcases List.mem_cons.mp hx with rfl | hx2
        · exact h x (List.mem_cons_self x (b :: rest))
        · exact h x (List.mem_cons_of_mem a (List.mem_cons_of_mem b hx2)))]
      rfl
    · rw [ih b (fun x hx => by
        rcases List.mem_cons.mp hx with rfl | hx2
        · exact h x (List.mem_cons_of_mem a (List.mem_cons_self x rest))
        · exact h x (List.mem_cons_of_mem a (List.mem_cons_of_mem b hx2)))]
      rfl

theorem bubblePass_append (mx : Job) (l : List Job)
    (h : ∀ x ∈ l, x.createdAt ≤ mx.createdAt) :
    bubblePass (l ++ [mx]) = bubblePass l ++ [mx] := by
  cases l with
  | nil => rfl
  | cons a rest =>
    simp only [List.cons_append, bubblePass]
    exact bubblePassGo_append mx rest a (fun x hx => h x (by simpa using hx))

theorem bubblePassIter_append (mx : Job) : ∀ (n : Nat) (l : List Job),
    (∀ x ∈ l, x.createdAt ≤ mx.createdAt) →
    bubblePassIter n (l ++ [mx]) = bubblePassIter n l ++ [mx] := by
  intro n
  induction n with
  | zero => intro l _; rfl
  | succ k ih =>
    intro l h
    simp only [bubblePassIter]
    rw [bubblePass_append mx l h]
    exact ih (bubblePass l)
      (fun x hx => h x ((bubblePass_perm l).mem_iff.mp hx))

/-- Iterating `n` bubble passes sorts any list of at most `n + 1` jobs. -/
theorem bubblePassIter_sorted : ∀ (n : Nat) (l : List Job),
    l.length ≤ n + 1 →
    List.Pairwise (fun x y => x.createdAt ≤ y.createdAt)
      (bubblePassIter n l) := by
  intro n
  induction n with
  | zero =>
    intro l h
    match l with
    | [] => exact List.Pairwise.nil
    | [a] =>
      exact List.Pairwise.cons (fun y hy => absurd hy (List.not_mem_nil y))
        List.Pairwise.nil
    | a :: b :: rest => simp at h
  | succ k ih =>
    intro l h
    cases l with
    | nil =>
      exact ih [] (by simp)
    | cons a rest =>
      simp only [bubblePassIter, bubblePass]
      obtain ⟨l2, m, heq, hmax⟩ := bubblePassGo_max rest a
      rw [heq]
      have hperm : (l2 ++ [m]).Perm (a :: rest) :=
        heq ▸ bubblePassGo_perm rest a
      have hlen : l2.length + 1 = rest.length + 1 := by
        simpa using hperm.length_eq
      have hl2 : ∀ x ∈ l2, x.createdAt ≤ m.createdAt := fun x hx =>
        hmax x (hperm.mem_iff.mp (List.mem_append_left [m] hx))
      rw [bubblePassIter_append m k l2 hl2]
      rw [List.pairwise_append]
      refine ⟨ih l2 (by simp at h; omega), by simp, ?_⟩
      intro x hx y hy
      rcases List.mem_singleton.mp hy with rfl
      exact hl2 x ((bubblePassIter_perm k l2).mem_iff.mp hx)

theorem bubbleSort_perm (l : List Job) :
    (bubbleSortByCreatedAt l).Perm l :=
  bubblePassIter_perm (l.length - 1) l

theorem bubbleSort_sorted (l : List Job) :
    List.Pairwise (fun x y => x.createdAt ≤ y.createdAt)
      (bubbleSortByCreatedAt l) :=
  bubblePassIter_sorted (l.length - 1) l (by omega)

/-- In a strictly sorted list, membership in the first `e` entries is
exactly having fewer than `e` strictly smaller keys. -/
theorem strictSorted_take_iff :
    ∀ (s : List Job),
      List.Pairwise (fun x y => x.createdAt < y.createdAt) s →
      ∀ j ∈ s, ∀ e : Nat,
        (j ∈ s.take e ↔
          (s.filter (fun k => k.createdAt < j.createdAt)).length < e) := by
  intro s
  induction s with
  | nil => intro _ j hj; simp at hj
  | cons a t ih =>
    intro hs j hj e
    obtain ⟨ha, ht⟩ := List.pairwise_cons.mp hs
    rcases List.mem_cons.mp hj with rfl | hjt
    · have hfil : (j :: t).filter
          (fun k => decide (k.createdAt < j.createdAt)) = [] := by
        rw [List.filter_eq_nil_iff]
        intro x hx
        rcases List.mem_cons.mp hx with rfl | hxt
        · simp
        · simp only [decide_eq_true_eq]
          exact not_lt.mpr (le_of_lt (ha x hxt))
      rw [hfil]
      cases e with
      | zero => simp
      | succ e1 => simp [List.take_succ_cons]
    · have hlt : a.createdAt < j.createdAt := ha j hjt
      have hfil : (a :: t).filter
          (fun k => decide (k.createdAt < j.createdAt)) =
          a :: t.filter (fun k => decide (k.createdAt < j.createdAt)) :=
        List.filter_cons_of_pos (by simpa using hlt)
      rw [hfil]
      cases e with
      | zero => simp
      | succ e1 =>
        have hne : j ≠ a := by
          intro hja
          rw [hja] at hlt
          exact lt_irrefl _ hlt
        rw [List.take_succ_cons, List.mem_cons, List.length_cons]
        have hih := ih ht j hjt e1
        constructor
        · intro h
          rcases h with h | h
          · exact absurd h hne
          · exact Nat.succ_lt_succ (hih.mp h)
        · intro h
          exact Or.inr (hih.mpr (Nat.lt_of_succ_lt_succ h))

/-- For a job in the table, its id appears among the ids of the
TTL-expired jobs exactly when it is itself expired (ids unique). -/
theorem mem_ttlIds_iff (now : Int) (jobs : List Job)
    (hid : (jobs.map Job.id).Nodup) (j : Job) (hj : j ∈ jobs) :
    j.id ∈ (jobs.filter (expired now)).map Job.id ↔ expired now j = true := by
  constructor
  · intro hmem
    obtain ⟨k, hkmem, hkid⟩ := List.mem_map.mp hmem
    obtain ⟨hkj, hkexp⟩ := List.mem_filter.mp hkmem
    have hkj2 : k = j := List.inj_on_of_nodup_map hid hkj hj hkid
    rwa [← hkj2]
  · intro h
    exact List.mem_map.mpr ⟨j, List.mem_filter.mpr ⟨hj, h⟩, rfl⟩

/-- For a job in the table, its id appears among the first `e` ids of the
creation-time-sorted table exactly when fewer than `e` jobs were created
strictly earlier (ids and creation times unique). -/
theorem mem_oldest_iff (jobs : List Job)
    (hid : (jobs.map Job.id).Nodup)
    (hca : (jobs.map Job.createdAt).Nodup) (j : Job) (hj : j ∈ jobs)
    (e : Nat) :
    j.id ∈ ((bubbleSortByCreatedAt jobs).take e).map Job.id ↔
      (jobs.filter (fun k => k.createdAt < j.createdAt)).length < e := by
  have hperm : (bubbleSortByCreatedAt jobs).Perm jobs := bubbleSort_perm jobs
  have hsortle := bubbleSort_sorted jobs
  have hcas : ((bubbleSortByCreatedAt jobs).map Job.createdAt).Nodup :=
    ((hperm.map Job.createdAt).nodup_iff).mpr hca
  have hstrict : List.Pairwise (fun x y => x.createdAt < y.createdAt)
      (bubbleSortByCreatedAt jobs) := by
    have hne := List.pairwise_map.mp hcas
    exact (hsortle.and hne).imp (fun h => lt_of_le_of_ne h.1 h.2)
  have hjs : j ∈ bubbleSortByCreatedAt jobs := hperm.mem_iff.mpr hj
  have hrank := strictSorted_take_iff _ hstrict j hjs e
  have hflen : ((bubbleSortByCreatedAt jobs).filter
      (fun k => k.createdAt < j.createdAt)).length =
      (jobs.filter (fun k => k.createdAt < j.createdAt)).length :=
    (hperm.filter _).length_eq
  constructor
  · intro hmem
    obtain ⟨k, hk, hkid⟩ := List.mem_map.mp hmem
    have hks : k ∈ bubbleSortByCreatedAt jobs := List.mem_of_mem_take hk
    have hkj : k ∈ jobs := hperm.mem_iff.mp hks
    have hkj2 : k = j := List.inj_on_of_nodup_map hid hkj hj hkid
    rw [← hflen]
    exact hrank.mp (hkj2 ▸ hk)
  · intro hlen
    exact List.mem_map.mpr ⟨j, hrank.mpr (hflen ▸ hlen), rfl⟩

/-- C3 amended: under unique ids and creation times, the sweep removes
exactly (a) the TTL-expired jobs, and (b) — whenever the table size
*before* any removal exceeds `maxHistorySize` — the
`size - maxHistorySize` oldest-created jobs; the two removal sets may
overlap, so the sweep can leave fewer than `maxHistorySize` jobs. -/
theorem cleanup_removes_expired_and_precount_oldest
    (maxHistorySize : Nat) (now : Int) (jobs : List Job)
    (hid : (jobs.map Job.id).Nodup)
    (hca : (jobs.map Job.createdAt).Nodup) :
    cleanupExpiredJobs maxHistorySize now jobs =
      jobs.filter (fun j =>
        !(expired now j) &&
        !(decide (maxHistorySize < jobs.length) &&
          decide ((jobs.filter
              (fun k => k.createdAt < j.createdAt)).length <
            jobs.length - maxHistorySize))) := by
  unfold cleanupExpiredJobs
  apply List.filter_congr
  intro j hj
  have h1 := mem_ttlIds_iff now jobs hid j hj
  by_cases hcap : maxHistorySize < jobs.length
  · rw [if_pos hcap]
    have h2 := mem_oldest_iff jobs hid hca j hj
      (jobs.length - maxHistorySize)
    have hc : ((jobs.filter (expired now)).map Job.id ++
        ((bubbleSortByCreatedAt jobs).take
          (jobs.length - maxHistorySize)).map Job.id).contains j.id =
        (expired now j ||
          decide ((jobs.filter
              (fun k => k.createdAt < j.createdAt)).length <
            jobs.length - maxHistorySize)) := by
      rw [Bool.eq_iff_iff]
      simp only [List.contains_eq_any_beq, List.any_eq_true, beq_iff_eq,
        Bool.or_eq_true, decide_eq_true_eq]
      constructor
      · rintro ⟨x, hx, rfl⟩
        rcases List.mem_append.mp hx with hxl | hxr
        · exact Or.inl (h1.mp hxl)
        · exact Or.inr (h2.mp hxr)
      · rintro (h | h)
        · exact ⟨j.id, List.mem_append_left _ (h1.mpr h), rfl⟩
        · exact ⟨j.id, List.mem_append_right _ (h2.mpr h), rfl⟩
    rw [hc, decide_eq_true hcap]
    cases expired now j <;>
      cases hdec : decide ((jobs.filter
          (fun k => k.createdAt < j.createdAt)).length <
        jobs.length - maxHistorySize) <;> rfl
  · rw [if_neg hcap]
    have hc : ((jobs.filter (expired now)).map Job.id).contains j.id =
        expired now j := by
      rw [Bool.eq_iff_iff]
      simp only [List.contains_eq_any_beq, List.any_eq_true, beq_iff_eq]
      constructor
      · rintro ⟨x, hx, rfl⟩
        exact h1.mp hx
      · intro h
        exact ⟨j.id, h1.mpr h, rfl⟩
    rw [hc, decide_eq_false hcap]
    cases expired now j <;> rfl

/-- C3 amended witness: the concrete three-job table from the
counterexample satisfies the amended characterisation. -/
theorem cleanup_removes_expired_and_precount_oldest_witness :
    cleanupExpiredJobs 2 10 c3Jobs =
      c3Jobs.filter (fun j =>
        !(expired 10 j) &&
        !(decide (2 < c3Jobs.length) &&
          decide ((c3Jobs.filter
              (fun k => k.createdAt < j.createdAt)).length <
            c3Jobs.length - 2))) :=
  cleanup_removes_expired_and_precount_oldest 2 10 c3Jobs (by decide)
    (by decide)

end Plandex
